import Mathlib

/-!
# Verification of the TEBD time-evolution engine

This file gives a shallow embedding of `tenpy/algorithms/tebd.py` together
with the surrounding TEBD engine design (Trotter scheduling, gate
application, truncation, sweeping, and the time-evolution driver), and
proves properties of that embedding.

The repository source file `tebd.py` contains the module docstring, the
bond convention (bond `i` sits between sites `(i-1, i)`), and the function
`time_evolution(psi, TEBD_params)` whose body consists only of a docstring.
The remaining engine components are absent from the source; they are
modelled from the specification, with each such definition marked
`Modelled from the spec:` in its doc comment.

Conventions of the embedding:
* machine floats are modelled as exact numbers (`ℚ` for tensor data,
  singular values and discarded weights; `ℝ` for Trotter time slices,
  whose fourth-order coefficients are irrational);
* in-place mutation of the MPS is modelled by explicit state passing;
* Python exceptions are modelled by `Except` / an `Option TebdError`
  component carried alongside the (possibly partially updated) state.
-/

namespace Tebd

/-- Errors of the TEBD engine (spec taxonomy, section 7). -/
inductive TebdError where
  | unsupportedOrder
  | incompatiblePhysicalDimension
  | truncationInfeasible
deriving DecidableEq

instance instDecEqExcept {ε α : Type} [DecidableEq ε] [DecidableEq α] :
    DecidableEq (Except ε α) := fun x y =>
  match x, y with
  | Except.ok a, Except.ok b =>
    match decEq a b with
    | isTrue h => isTrue (by rw [h])
    | isFalse h => isFalse (by intro hc; cases hc; exact h rfl)
  | Except.ok _, Except.error _ => isFalse (by intro hc; cases hc)
  | Except.error _, Except.ok _ => isFalse (by intro hc; cases hc)
  | Except.error a, Except.error b =>
    match decEq a b with
    | isTrue h => isTrue (by rw [h])
    | isFalse h => isFalse (by intro hc; cases hc; exact h rfl)

/-- Bond parity: the Trotter split is over even bonds and odd bonds. -/
inductive Parity where
  | even
  | odd
deriving DecidableEq

/-- Parity of a bond index: bond `i` is even when `i % 2 = 0`. -/
def parityOf (i : ℕ) : Parity :=
  if i % 2 = 0 then Parity.even else Parity.odd

/-- A rank-3 site tensor with indices (left bond, physical, right bond).
The entries are an opaque array of scalars, modelled as a function. -/
structure SiteTensor where
  leftDim : ℕ
  physDim : ℕ
  rightDim : ℕ
  entries : ℕ → ℕ → ℕ → ℚ

/-- Fallback tensor used for total list indexing. -/
def defaultTensor : SiteTensor :=
  { leftDim := 0, physDim := 0, rightDim := 0, entries := fun _ _ _ => 0 }

/-- An MPS: a chain of site tensors plus its topology
(`finite = true` for an open finite chain, `false` for infinite/periodic). -/
structure MPS where
  sites : List SiteTensor
  finite : Bool

/-- A two-site operator (gate): its two physical leg dimensions and opaque
matrix elements. -/
structure TwoSiteOp where
  physDim1 : ℕ
  physDim2 : ℕ
  entries : ℕ → ℕ → ℕ → ℕ → ℚ

/-- The combined two-site block obtained by contracting two adjacent site
tensors with a gate. -/
structure Block where
  leftDim : ℕ
  physDim1 : ℕ
  physDim2 : ℕ
  rightDim : ℕ
  entries : ℕ → ℕ → ℕ → ℕ → ℚ

/-- The opaque tensor-algebra backend (an external collaborator per the
spec, section 1): contraction of a bond pair with a gate, the singular
value spectrum of a block, and the entry data of the two re-factored
tensors for a given kept rank. -/
structure Backend where
  contract : SiteTensor → SiteTensor → TwoSiteOp → Block
  svd : Block → List ℚ
  factorL : Block → ℕ → (ℕ → ℕ → ℕ → ℚ)
  factorR : Block → ℕ → (ℕ → ℕ → ℕ → ℚ)

/-! ## The source function `time_evolution`

The body of `time_evolution` in `tebd.py` consists only of a docstring:
it reads nothing, writes nothing, raises nothing and returns `None`. -/

/-- The parameter dictionary passed to `time_evolution` (its contents are
never read by the source function). -/
structure TEBDParams where
  entries : List (String × String)

/-- Embedding of `tenpy.algorithms.tebd.time_evolution`: the function body
consists only of a docstring, so it returns `None` (here `Except.ok ()`,
recording that no exception is raised) and leaves `psi` untouched. -/
def time_evolution (psi : MPS) (TEBD_params : TEBDParams) :
    Except TebdError Unit × MPS :=
  (Except.ok (), psi)

/-! ## TrotterScheduler

Modelled from the spec, section 4.1: absent from `src` (the source file is
a documentation stub). -/

/-- One symmetric (Strang) second-order block: odd half step, even full
step, odd half step. Modelled from the spec: `TrotterScheduler`, order 2. -/
noncomputable def strangStep (dt : ℝ) : List (Parity × ℝ) :=
  [(Parity.odd, dt / 2), (Parity.even, dt), (Parity.odd, dt / 2)]

/-- The Suzuki fourth-order coefficient `p = 1 / (4 - 4^(1/3))`.
Modelled from the spec: "analytically derived coefficients (Suzuki's
construction) summing to `dt`". -/
noncomputable def suzukiP : ℝ :=
  1 / (4 - (4 : ℝ) ^ ((1 : ℝ) / 3))

/-- The five coefficients of the Suzuki fourth-order composition of
second-order blocks; they sum to 1. Modelled from the spec. -/
noncomputable def order4Coeffs : List ℝ :=
  [suzukiP, suzukiP, 1 - 4 * suzukiP, suzukiP, suzukiP]

/-- The schedule body for a supported order. Modelled from the spec,
section 4.1: order 1 is a single even-then-odd pass with full slice `dt`
(the source docstring applies `H^even` first, then `H^odd`); order 2 is
the Strang block; order 4 composes Strang blocks over the Suzuki
coefficients. -/
noncomputable def scheduleBody (order : ℕ) (dt : ℝ) : List (Parity × ℝ) :=
  match order with
  | 1 => [(Parity.even, dt), (Parity.odd, dt)]
  | 2 => strangStep dt
  | 4 => (order4Coeffs.map (fun c => strangStep (c * dt))).flatten
  | _ => []

/-- The orders supported by the scheduler. -/
def supportedOrders : List ℕ := [1, 2, 4]

/-- Modelled from the spec: `TrotterScheduler`. Unsupported orders fail
with `UnsupportedOrder`; `dt = 0` yields an empty (no-op) schedule;
otherwise the order's schedule body is produced. The schedule is pure
data and does not touch the MPS. -/
noncomputable def trotterSchedule (order : ℕ) (dt : ℝ) :
    Except TebdError (List (Parity × ℝ)) :=
  if order ∈ supportedOrders then
    if dt = 0 then Except.ok [] else Except.ok (scheduleBody order dt)
  else Except.error TebdError.unsupportedOrder

/-- Total time-slice assigned to parity `p` by a schedule. -/
def paritySum (p : Parity) : List (Parity × ℝ) → ℝ
  | [] => 0
  | (q, t) :: rest => (if q = p then t else 0) + paritySum p rest

theorem paritySum_append (p : Parity) (l₁ l₂ : List (Parity × ℝ)) :
    paritySum p (l₁ ++ l₂) = paritySum p l₁ + paritySum p l₂ := by
  induction l₁ with
  | nil => simp [paritySum]
  | cons e rest ih =>
    obtain ⟨q, t⟩ := e
    simp [paritySum, ih]
    ring

theorem paritySum_strang_even (dt : ℝ) :
    paritySum Parity.even (strangStep dt) = dt := by
  simp [paritySum, strangStep]

theorem paritySum_strang_odd (dt : ℝ) :
    paritySum Parity.odd (strangStep dt) = dt := by
  simp [paritySum, strangStep]

theorem paritySum_scheduleBody (p : Parity) (order : ℕ) (dt : ℝ)
    (h : order ∈ supportedOrders) :
    paritySum p (scheduleBody order dt) = dt := by
  have h' : order = 1 ∨ order = 2 ∨ order = 4 := by
    simpa [supportedOrders] using h
  rcases h' with h1 | h2 | h4
  · subst h1
    cases p <;> simp [scheduleBody, paritySum]
  · subst h2
    cases p
    · exact paritySum_strang_even dt
    · exact paritySum_strang_odd dt
  · subst h4
    cases p <;>
      simp [scheduleBody, order4Coeffs, paritySum_append,
        paritySum_strang_even, paritySum_strang_odd, paritySum] <;>
      ring_nf

/-- C3: for every supported Trotter order and every `dt`, the time-slices
the scheduler assigns to the even bonds sum to `dt`, and likewise for the
odd bonds, over one full step. -/
theorem trotter_slices_sum_per_parity (order : ℕ) (dt : ℝ)
    (sched : List (Parity × ℝ))
    (h : trotterSchedule order dt = Except.ok sched) :
    paritySum Parity.even sched = dt ∧ paritySum Parity.odd sched = dt := by
  by_cases hmem : order ∈ supportedOrders
  · by_cases hdt : dt = 0
    · have hs : sched = [] := by
        rw [trotterSchedule, if_pos hmem, if_pos hdt] at h
        exact ((Except.ok.injEq _ _).mp h).symm
      subst hdt
      simp [hs, paritySum]
    · have hs : sched = scheduleBody order dt := by
        rw [trotterSchedule, if_pos hmem, if_neg hdt] at h
        exact ((Except.ok.injEq _ _).mp h).symm
      subst hs
      exact ⟨paritySum_scheduleBody _ _ _ hmem, paritySum_scheduleBody _ _ _ hmem⟩
  · rw [trotterSchedule, if_neg hmem] at h
    exact absurd h (by simp)

/-- Witness for C3 at order 2, `dt = 1`. -/
theorem trotter_slices_sum_per_parity_witness :
    paritySum Parity.even (strangStep 1) = 1 ∧
      paritySum Parity.odd (strangStep 1) = 1 :=
  trotter_slices_sum_per_parity 2 1 (strangStep 1)
    (by rw [trotterSchedule, if_pos (by decide), if_neg one_ne_zero]
        rfl)

/-- C4 (amended): for every `dt ≠ 0`, the order-2 schedule is exactly the
three entries odd `dt/2`, even `dt`, odd `dt/2`.  (At `dt = 0` the
scheduler instead produces the empty schedule, see the counterexample.) -/
theorem order2_schedule_nonzero_dt (dt : ℝ) (h : dt ≠ 0) :
    trotterSchedule 2 dt =
      Except.ok [(Parity.odd, dt / 2), (Parity.even, dt), (Parity.odd, dt / 2)] := by
  rw [trotterSchedule, if_pos (by decide), if_neg h]
  rfl

/-- Witness for C4 (amended) at `dt = 1`. -/
theorem order2_schedule_nonzero_dt_witness :
    trotterSchedule 2 1 =
      Except.ok [(Parity.odd, (1 : ℝ) / 2), (Parity.even, 1), (Parity.odd, (1 : ℝ) / 2)] :=
  order2_schedule_nonzero_dt 1 one_ne_zero

/-- Counterexample for C4 as stated ("for every dt"): at `dt = 0` the
scheduler produces the empty schedule, not the three-entry sequence. -/
theorem order2_schedule_dt0_counterexample :
    trotterSchedule 2 0 = Except.ok [] ∧
      (Except.ok [] : Except TebdError (List (Parity × ℝ))) ≠
        Except.ok [(Parity.odd, (0 : ℝ) / 2), (Parity.even, (0 : ℝ)),
          (Parity.odd, (0 : ℝ) / 2)] := by
  constructor
  · rw [trotterSchedule, if_pos (by decide), if_pos rfl]
  · simp

/-! ## TruncationEngine

Modelled from the spec, section 4.3: absent from `src`. -/

/-- The truncation configuration consumed by the truncation engine. -/
structure TruncCfg where
  max_bond_dimension : ℕ
  discarded_weight_tolerance : ℚ
  min_singular_value_cutoff : ℚ
  strict : Bool

/-- Normalized discarded weight when the first `k` singular values are
kept: sum of squared dropped values over sum of all squared values.
Modelled from the spec, section 4.3. -/
def discardedWeight (svals : List ℚ) (k : ℕ) : ℚ :=
  (((svals.drop k).map fun s => s * s).sum) / ((svals.map fun s => s * s).sum)

/-- The kept rank: at most `max_bond_dimension` values, and singular
values below `min_singular_value_cutoff` are always dropped (the spectrum
arrives sorted non-increasing from the SVD, so the values at or above the
cutoff form the leading run). Modelled from the spec, section 4.3. -/
def keptRank (cfg : TruncCfg) (svals : List ℚ) : ℕ :=
  min cfg.max_bond_dimension
    (svals.takeWhile fun s => cfg.min_singular_value_cutoff ≤ s).length

/-- Modelled from the spec: `TruncationEngine`. Returns the kept rank and
the discarded weight, or fails with `TruncationInfeasible` when the
discarded weight exceeds the tolerance under a strict configuration
(non-strict configurations report the achieved weight instead). -/
def truncate (cfg : TruncCfg) (svals : List ℚ) : Except TebdError (ℕ × ℚ) :=
  let k := keptRank cfg svals
  let w := discardedWeight svals k
  if cfg.strict ∧ cfg.discarded_weight_tolerance < w then
    Except.error TebdError.truncationInfeasible
  else Except.ok (k, w)

theorem truncate_ok_eq {cfg : TruncCfg} {svals : List ℚ} {k : ℕ} {w : ℚ}
    (h : truncate cfg svals = Except.ok (k, w)) :
    k = keptRank cfg svals ∧ w = discardedWeight svals (keptRank cfg svals) := by
  unfold truncate at h
  by_cases hc : cfg.strict ∧
      cfg.discarded_weight_tolerance < discardedWeight svals (keptRank cfg svals)
  · rw [if_pos hc] at h
    exact absurd h (by simp)
  · rw [if_neg hc] at h
    have := (Except.ok.injEq _ _).mp h
    exact ⟨(congrArg Prod.fst this).symm, (congrArg Prod.snd this).symm⟩

theorem truncate_error_eq {cfg : TruncCfg} {svals : List ℚ} {e : TebdError}
    (h : truncate cfg svals = Except.error e) :
    e = TebdError.truncationInfeasible := by
  unfold truncate at h
  by_cases hc : cfg.strict ∧
      cfg.discarded_weight_tolerance < discardedWeight svals (keptRank cfg svals)
  · rw [if_pos hc] at h
    exact ((Except.error.injEq _ _).mp h).symm
  · rw [if_neg hc] at h
    exact absurd h (by simp)

theorem sum_sq_nonneg (l : List ℚ) : 0 ≤ (l.map fun s => s * s).sum := by
  induction l with
  | nil => simp
  | cons a rest ih =>
    simp only [List.map_cons, List.sum_cons]
    exact add_nonneg (mul_self_nonneg a) ih

theorem discardedWeight_nonneg (svals : List ℚ) (k : ℕ) :
    0 ≤ discardedWeight svals k :=
  div_nonneg (sum_sq_nonneg _) (sum_sq_nonneg _)

theorem sum_sq_eq_zero_iff (l : List ℚ) :
    (l.map fun s => s * s).sum = 0 ↔ ∀ s ∈ l, s = 0 := by
  induction l with
  | nil => simp
  | cons a rest ih =>
    simp only [List.map_cons, List.sum_cons, List.mem_cons]
    constructor
    · intro h
      have ha : a * a = 0 ∧ ((rest.map fun s => s * s).sum) = 0 :=
        (add_eq_zero_iff_of_nonneg (mul_self_nonneg a) (sum_sq_nonneg rest)).mp h
      have ha0 : a = 0 := by
        have := ha.1
        nlinarith [ha.1]
      exact fun s hs => hs.elim (fun h1 => h1 ▸ ha0) (fun h2 => ih.mp ha.2 s h2)
    · intro h
      have ha0 : a = 0 := h a (Or.inl rfl)
      have hr : (rest.map fun s => s * s).sum = 0 :=
        ih.mpr fun s hs => h s (Or.inr hs)
      rw [ha0, hr]
      ring

/-- The discarded weight is zero exactly when every dropped singular value
is zero (the all-zero spectrum gives weight `0/0 = 0` and indeed drops
only zeros). -/
theorem discardedWeight_eq_zero_iff (svals : List ℚ) (k : ℕ) :
    discardedWeight svals k = 0 ↔ ∀ s ∈ svals.drop k, s = 0 := by
  unfold discardedWeight
  by_cases hden : (svals.map fun s => s * s).sum = 0
  · have hall : ∀ s ∈ svals, s = 0 := (sum_sq_eq_zero_iff svals).mp hden
    rw [hden]
    simp only [div_zero, true_iff]
    exact fun s hs => hall s (List.mem_of_mem_drop hs)
  · rw [div_eq_zero_iff]
    constructor
    · intro h
      rcases h with h | h
      · exact (sum_sq_eq_zero_iff _).mp h
      · exact absurd h hden
    · intro h
      exact Or.inl ((sum_sq_eq_zero_iff _).mpr h)

theorem keptRank_le (cfg : TruncCfg) (svals : List ℚ) :
    keptRank cfg svals ≤ cfg.max_bond_dimension :=
  Nat.min_le_left _ _

/-- On a non-increasing spectrum, every value in the kept prefix dominates
every value in the dropped suffix. -/
theorem sorted_take_drop {svals : List ℚ} (k : ℕ)
    (hs : List.Sorted (fun a b => b ≤ a) svals) :
    ∀ x ∈ svals.take k, ∀ y ∈ svals.drop k, y ≤ x := by
  intro x hx y hy
  have hsplit : svals = svals.take k ++ svals.drop k := (List.take_append_drop k svals).symm
  rw [hsplit, List.Sorted, List.pairwise_append] at hs
  exact hs.2.2 x hx y hy

/-- C6: the truncation step never keeps a rank above `max_bond_dimension`,
and (on the non-increasing spectrum delivered by the SVD) never discards a
singular value strictly larger than a retained one. -/
theorem truncation_rank_bound_and_order (cfg : TruncCfg) (svals : List ℚ)
    (k : ℕ) (w : ℚ)
    (hs : List.Sorted (fun a b => b ≤ a) svals)
    (h : truncate cfg svals = Except.ok (k, w)) :
    k ≤ cfg.max_bond_dimension ∧
      ∀ x ∈ svals.take k, ∀ y ∈ svals.drop k, y ≤ x := by
  obtain ⟨hk, -⟩ := truncate_ok_eq h
  subst hk
  exact ⟨keptRank_le cfg svals, sorted_take_drop _ hs⟩

/-- Witness for C6 on the spectrum `[3, 2, 1]` with `max_bond_dimension = 2`. -/
theorem truncation_rank_bound_and_order_witness :
    2 ≤ (TruncCfg.mk 2 1 0 false).max_bond_dimension ∧
      ∀ x ∈ ([3, 2, 1] : List ℚ).take 2, ∀ y ∈ ([3, 2, 1] : List ℚ).drop 2, y ≤ x :=
  truncation_rank_bound_and_order (TruncCfg.mk 2 1 0 false) [3, 2, 1] 2 (1 / 14)
    (by decide)
    (by simp [truncate, keptRank, discardedWeight, List.takeWhile]
        norm_num)

/-! ## GateApplicator, SweepDriver and TimeEvolutionDriver

Modelled from the spec, sections 4.2, 4.4 and 4.5: absent from `src`.
In-place mutation of the MPS is made explicit: every driver-level
operation returns the (possibly partially updated) state together with
the accumulated discarded weight and the first error encountered. -/

/-- Total indexing into the site list. -/
def siteD (l : List SiteTensor) (j : ℕ) : SiteTensor :=
  l.getD j defaultTensor

/-- The two site positions spanned by bond `i` (source docstring: bond `i`
is between sites `(i-1, i)`); on an infinite/periodic chain the left
neighbor wraps by modular indexing, so bond 0 pairs site `L-1` with
site 0. -/
def bondSiteIdx (L : ℕ) (finite : Bool) (i : ℕ) : ℕ × ℕ :=
  if finite then (i - 1, i) else ((i + L - 1) % L, i % L)

/-- Modelled from the spec: `GateApplicator`. Checks the operator's
physical legs against the two site tensors (else
`IncompatiblePhysicalDimension`), contracts the pair with the gate,
truncates the combined block, and writes back the re-factored pair whose
shared bond carries the kept rank; returns the discarded weight. A bond
whose sites are out of range is skipped (returns the state unchanged). -/
def applyGateAt (bk : Backend) (cfg : TruncCfg) (op : TwoSiteOp)
    (psi : MPS) (i : ℕ) : Except TebdError (MPS × ℚ) :=
  let ab := bondSiteIdx psi.sites.length psi.finite i
  match psi.sites[ab.1]?, psi.sites[ab.2]? with
  | some Tl, some Tr =>
    if op.physDim1 = Tl.physDim ∧ op.physDim2 = Tr.physDim then
      let blk := bk.contract Tl Tr op
      match truncate cfg (bk.svd blk) with
      | Except.error e => Except.error e
      | Except.ok (k, w) =>
        let Tl' : SiteTensor :=
          { leftDim := Tl.leftDim, physDim := Tl.physDim, rightDim := k,
            entries := bk.factorL blk k }
        let Tr' : SiteTensor :=
          { leftDim := k, physDim := Tr.physDim, rightDim := Tr.rightDim,
            entries := bk.factorR blk k }
        Except.ok (⟨(psi.sites.set ab.1 Tl').set ab.2 Tr', psi.finite⟩, w)
    else Except.error TebdError.incompatiblePhysicalDimension
  | _, _ => Except.ok (psi, 0)

/-- The bonds visited by one sweep of a given parity, in ascending order:
`1 .. L-1` of that parity for a finite chain (edge bonds 0 and L, whose
neighbor would fall outside `[0, L)`, are skipped), `0 .. L-1` of that
parity for an infinite chain. Modelled from the spec, section 4.4. -/
def sweepBonds (L : ℕ) (finite : Bool) (p : Parity) : List ℕ :=
  match finite with
  | true => (List.range L).filter fun i => decide (1 ≤ i) && decide (parityOf i = p)
  | false => (List.range L).filter fun i => decide (parityOf i = p)

/-- One sweep over a list of bonds: apply the gate at each bond in order,
accumulating discarded weight, stopping at the first error (the state
already updated for earlier bonds is kept — no rollback). Modelled from
the spec, sections 4.4 and 7. -/
def sweepGo (bk : Backend) (cfg : TruncCfg) (ham : ℕ → ℝ → TwoSiteOp)
    (t : ℝ) : List ℕ → MPS → ℚ → MPS × ℚ × Option TebdError
  | [], psi, w => (psi, w, none)
  | b :: rest, psi, w =>
    match applyGateAt bk cfg (ham b t) psi b with
    | Except.error e => (psi, w, some e)
    | Except.ok (psi', wb) => sweepGo bk cfg ham t rest psi' (w + wb)

/-- Modelled from the spec: `SweepDriver` for one (parity, time-slice)
instruction. -/
def sweepDriver (bk : Backend) (cfg : TruncCfg) (ham : ℕ → ℝ → TwoSiteOp)
    (p : Parity) (t : ℝ) (psi : MPS) : MPS × ℚ × Option TebdError :=
  sweepGo bk cfg ham t (sweepBonds psi.sites.length psi.finite p) psi 0

/-- Run the schedule entries of one full step in order, summing the
per-sweep discarded weights, aborting at the first error. Modelled from
the spec, section 4.5. -/
def runEntries (bk : Backend) (cfg : TruncCfg) (ham : ℕ → ℝ → TwoSiteOp) :
    List (Parity × ℝ) → MPS → ℚ → MPS × ℚ × Option TebdError
  | [], psi, w => (psi, w, none)
  | (p, t) :: rest, psi, w =>
    match sweepDriver bk cfg ham p t psi with
    | (psi', ws, some e) => (psi', w + ws, some e)
    | (psi', ws, none) => runEntries bk cfg ham rest psi' (w + ws)

/-- Modelled from the spec: one full time-evolution step — build the
schedule, then run it; an unsupported order is surfaced before any
evolution is performed. -/
noncomputable def timeStep (bk : Backend) (cfg : TruncCfg)
    (ham : ℕ → ℝ → TwoSiteOp) (order : ℕ) (dt : ℝ) (psi : MPS) :
    MPS × ℚ × Option TebdError :=
  match trotterSchedule order dt with
  | Except.error e => (psi, 0, some e)
  | Except.ok sched => runEntries bk cfg ham sched psi 0

/-- Driver-owned state: the evolving MPS, the cumulative truncation-error
accumulator, and the completed-step counter. Modelled from the spec,
sections 3 and 4.5. -/
structure DriverState where
  psi : MPS
  cumErr : ℚ
  completed_steps : ℕ

/-- Driver (re)initialization: the accumulator is reset to zero. -/
def initDriver (psi : MPS) : DriverState :=
  { psi := psi, cumErr := 0, completed_steps := 0 }

/-- Modelled from the spec: `TimeEvolutionDriver`, one step — run a full
Trotter step, add the step's discarded weight into the cumulative
accumulator, return the step error alongside. -/
noncomputable def driverStep (bk : Backend) (cfg : TruncCfg)
    (ham : ℕ → ℝ → TwoSiteOp) (order : ℕ) (dt : ℝ) (st : DriverState) :
    DriverState × ℚ × Option TebdError :=
  match timeStep bk cfg ham order dt st.psi with
  | (psi', w, err) =>
    ({ psi := psi', cumErr := st.cumErr + w,
       completed_steps :=
         match err with
         | none => st.completed_steps + 1
         | some _ => st.completed_steps }, w, err)

/-- Driver states reachable from a (re)initialization by repeated steps. -/
inductive Reachable (bk : Backend) (cfg : TruncCfg)
    (ham : ℕ → ℝ → TwoSiteOp) (order : ℕ) (dt : ℝ) : DriverState → Prop
  | init (psi : MPS) : Reachable bk cfg ham order dt (initDriver psi)
  | step (st : DriverState) : Reachable bk cfg ham order dt st →
      Reachable bk cfg ham order dt (driverStep bk cfg ham order dt st).1

/-! ## Concrete fixtures used by the closed witnesses -/

/-- A 1×2×1 site tensor. -/
def T0 : SiteTensor :=
  { leftDim := 1, physDim := 2, rightDim := 1, entries := fun _ _ _ => 0 }

/-- A two-site finite chain of physical dimension 2. -/
def psi0 : MPS := { sites := [T0, T0], finite := true }

/-- A gate matching physical dimension 2. -/
def op0 : TwoSiteOp := { physDim1 := 2, physDim2 := 2, entries := fun _ _ _ _ => 0 }

/-- A gate whose first physical leg (dimension 3) mismatches `psi0`. -/
def opBad : TwoSiteOp := { physDim1 := 3, physDim2 := 2, entries := fun _ _ _ _ => 0 }

/-- A concrete combined block. -/
def blk0 : Block :=
  { leftDim := 1, physDim1 := 2, physDim2 := 2, rightDim := 1,
    entries := fun _ _ _ _ => 0 }

/-- A toy backend whose SVD always reports the spectrum `[1, 0]`. -/
def bk0 : Backend :=
  { contract := fun _ _ _ => blk0, svd := fun _ => [1, 0],
    factorL := fun _ _ => fun _ _ _ => 0, factorR := fun _ _ => fun _ _ _ => 0 }

/-- A Hamiltonian collaborator supplying `op0` at every bond and slice. -/
def ham0 : ℕ → ℝ → TwoSiteOp := fun _ _ => op0

/-- A Hamiltonian collaborator supplying the mismatched gate everywhere. -/
def hamBad : ℕ → ℝ → TwoSiteOp := fun _ _ => opBad

/-- A permissive truncation configuration. -/
def cfg0 : TruncCfg :=
  { max_bond_dimension := 2, discarded_weight_tolerance := 1,
    min_singular_value_cutoff := 0, strict := false }

/-- A strict configuration keeping a single value. -/
def cfgZ : TruncCfg :=
  { max_bond_dimension := 1, discarded_weight_tolerance := 1,
    min_singular_value_cutoff := 0, strict := true }

/-! ## C1: the source `time_evolution` is a no-op -/

/-- C1: for every MPS and parameter dictionary, `time_evolution` returns
`None` (no exception) and leaves every site tensor of `psi` unchanged —
the function body consists only of a docstring. -/
theorem time_evolution_noop (psi : MPS) (params : TEBDParams) :
    (time_evolution psi params).1 = Except.ok () ∧
      (time_evolution psi params).2.sites = psi.sites ∧
      (time_evolution psi params).2 = psi :=
  ⟨rfl, rfl, rfl⟩

/-! ## C2: a step at `dt = 0` is a no-op -/

/-- C2: with `dt = 0` and a supported order, the scheduler produces the
empty schedule and one full time-evolution step reports zero truncation
error, no failure, and leaves all site tensors unchanged. -/
theorem dt_zero_step_noop (bk : Backend) (cfg : TruncCfg)
    (ham : ℕ → ℝ → TwoSiteOp) (order : ℕ) (psi : MPS)
    (h : order ∈ supportedOrders) :
    trotterSchedule order 0 = Except.ok [] ∧
      timeStep bk cfg ham order 0 psi = (psi, 0, none) := by
  have hs : trotterSchedule order 0 = Except.ok [] := by
    rw [trotterSchedule, if_pos h, if_pos rfl]
  exact ⟨hs, by simp [timeStep, hs, runEntries]⟩

/-- Witness for C2 at order 2 on a concrete two-site chain. -/
theorem dt_zero_step_noop_witness :
    trotterSchedule 2 0 = Except.ok [] ∧
      timeStep bk0 cfg0 ham0 2 0 psi0 = (psi0, 0, none) :=
  dt_zero_step_noop bk0 cfg0 ham0 2 psi0 (by decide)

/-! ## C5: unsupported orders are rejected up front -/

theorem applyGateAt_error_cases {bk : Backend} {cfg : TruncCfg}
    {op : TwoSiteOp} {psi : MPS} {i : ℕ} {e : TebdError}
    (h : applyGateAt bk cfg op psi i = Except.error e) :
    e = TebdError.incompatiblePhysicalDimension ∨
      e = TebdError.truncationInfeasible := by
  simp only [applyGateAt] at h
  split at h
  · split at h
    · split at h
      · exact Or.inr (truncate_error_eq (by
          rename_i heq
          rw [heq]
          exact congrArg Except.error ((Except.error.injEq _ _).mp h)))
      · exact absurd h (by simp)
    · exact Or.inl ((Except.error.injEq _ _).mp h).symm
  · exact absurd h (by simp)

theorem sweepGo_error_cases (bk : Backend) (cfg : TruncCfg)
    (ham : ℕ → ℝ → TwoSiteOp) (t : ℝ) :
    ∀ (bonds : List ℕ) (psi : MPS) (w : ℚ) (e : TebdError),
      (sweepGo bk cfg ham t bonds psi w).2.2 = some e →
      e = TebdError.incompatiblePhysicalDimension ∨
        e = TebdError.truncationInfeasible := by
  intro bonds
  induction bonds with
  | nil => intro psi w e h; exact absurd h (by simp [sweepGo])
  | cons b rest ih =>
    intro psi w e h
    rw [sweepGo] at h
    cases hg : applyGateAt bk cfg (ham b t) psi b with
    | error e' =>
      rw [hg] at h
      simp at h
      exact h ▸ applyGateAt_error_cases hg
    | ok r =>
      rw [hg] at h
      exact ih r.1 (w + r.2) e h

theorem runEntries_error_cases (bk : Backend) (cfg : TruncCfg)
    (ham : ℕ → ℝ → TwoSiteOp) :
    ∀ (sched : List (Parity × ℝ)) (psi : MPS) (w : ℚ) (e : TebdError),
      (runEntries bk cfg ham sched psi w).2.2 = some e →
      e = TebdError.incompatiblePhysicalDimension ∨
        e = TebdError.truncationInfeasible := by
  intro sched
  induction sched with
  | nil => intro psi w e h; exact absurd h (by simp [runEntries])
  | cons entry rest ih =>
    intro psi w e h
    obtain ⟨p, t⟩ := entry
    rw [runEntries] at h
    cases hs : (sweepDriver bk cfg ham p t psi).2.2 with
    | some e' =>
      have hsw : sweepDriver bk cfg ham p t psi =
          ((sweepDriver bk cfg ham p t psi).1,
            (sweepDriver bk cfg ham p t psi).2.1, some e') := by
        rw [← hs]
      rw [hsw] at h
      simp at h
      exact h ▸ sweepGo_error_cases bk cfg ham t _ psi 0 e' hs
    | none =>
      have hsw : sweepDriver bk cfg ham p t psi =
          ((sweepDriver bk cfg ham p t psi).1,
            (sweepDriver bk cfg ham p t psi).2.1, none) := by
        rw [← hs]
      rw [hsw] at h
      exact ih _ _ e h

/-- C5: an unsupported `order` fails with `UnsupportedOrder` immediately,
before any evolution (the MPS is returned untouched with zero error),
while a supported order never surfaces `UnsupportedOrder`. -/
theorem unsupported_order_rejected (bk : Backend) (cfg : TruncCfg)
    (ham : ℕ → ℝ → TwoSiteOp) (psi : MPS) (order : ℕ) (dt : ℝ) :
    (order ∉ supportedOrders →
      timeStep bk cfg ham order dt psi =
        (psi, 0, some TebdError.unsupportedOrder)) ∧
    (order ∈ supportedOrders →
      ∀ e, (timeStep bk cfg ham order dt psi).2.2 = some e →
        e ≠ TebdError.unsupportedOrder) := by
  constructor
  · intro h
    have hs : trotterSchedule order dt = Except.error TebdError.unsupportedOrder := by
      rw [trotterSchedule, if_neg h]
    simp [timeStep, hs]
  · intro h e he
    cases hs : trotterSchedule order dt with
    | error e' =>
      rw [trotterSchedule, if_pos h] at hs
      by_cases hdt : dt = 0
      · rw [if_pos hdt] at hs; exact absurd hs (by simp)
      · rw [if_neg hdt] at hs; exact absurd hs (by simp)
    | ok sched =>
      rw [timeStep] at he
      rw [hs] at he
      rcases runEntries_error_cases bk cfg ham sched psi 0 e he with h1 | h1 <;>
        simp [h1]

/-- Witness for C5 at the unsupported order 3. -/
theorem unsupported_order_rejected_witness :
    timeStep bk0 cfg0 ham0 3 1 psi0 =
      (psi0, 0, some TebdError.unsupportedOrder) :=
  (unsupported_order_rejected bk0 cfg0 ham0 psi0 3 1).1 (by decide)

/-! ## C10: failures propagate unchanged, abort the step, no rollback -/

theorem sweepGo_append (bk : Backend) (cfg : TruncCfg)
    (ham : ℕ → ℝ → TwoSiteOp) (t : ℝ) (done more : List ℕ) :
    ∀ (psi : MPS) (w : ℚ),
      sweepGo bk cfg ham t (done ++ more) psi w =
        match sweepGo bk cfg ham t done psi w with
        | (psid, wd, none) => sweepGo bk cfg ham t more psid wd
        | (psid, wd, some e) => (psid, wd, some e) := by
  induction done with
  | nil => intro psi w; simp [sweepGo]
  | cons b rest ih =>
    intro psi w
    cases hg : applyGateAt bk cfg (ham b t) psi b with
    | error e => simp only [List.cons_append, sweepGo, hg]
    | ok r =>
      simp only [List.cons_append, sweepGo, hg]
      exact ih r.1 (w + r.2)

/-- C10: a `TruncationInfeasible` or `IncompatiblePhysicalDimension`
failure at a gate propagates unchanged through the sweep and the step
loop; the sweep stops at the first failure and returns the state already
updated for the earlier bonds (no rollback). -/
theorem error_propagation_unchanged (bk : Backend) (cfg : TruncCfg)
    (ham : ℕ → ℝ → TwoSiteOp) (t : ℝ) :
    (∀ (done rest : List ℕ) (b : ℕ) (psi psid : MPS) (wd : ℚ) (e : TebdError),
      sweepGo bk cfg ham t done psi 0 = (psid, wd, none) →
      applyGateAt bk cfg (ham b t) psid b = Except.error e →
      sweepGo bk cfg ham t (done ++ b :: rest) psi 0 = (psid, wd, some e)) ∧
    (∀ (p : Parity) (rest : List (Parity × ℝ)) (psi psi' : MPS)
        (w ws : ℚ) (e : TebdError),
      sweepDriver bk cfg ham p t psi = (psi', ws, some e) →
      runEntries bk cfg ham ((p, t) :: rest) psi w = (psi', w + ws, some e)) := by
  constructor
  · intro done rest b psi psid wd e hdone hgate
    rw [sweepGo_append, hdone]
    simp only [sweepGo, hgate]
  · intro p rest psi psi' w ws e hsw
    rw [runEntries, hsw]

/-- Witness for C10: a mismatched gate at bond 1 of a two-site chain
surfaces `IncompatiblePhysicalDimension` from the sweep unchanged. -/
theorem error_propagation_unchanged_witness :
    sweepGo bk0 cfg0 hamBad 1 ([] ++ 1 :: []) psi0 0 =
      (psi0, 0, some TebdError.incompatiblePhysicalDimension) :=
  (error_propagation_unchanged bk0 cfg0 hamBad 1).1 [] [] 1 psi0 psi0 0
    TebdError.incompatiblePhysicalDimension rfl rfl

/-! ## C7: the truncation-error accumulator -/

theorem truncate_ok_nonneg {cfg : TruncCfg} {svals : List ℚ} {k : ℕ} {w : ℚ}
    (h : truncate cfg svals = Except.ok (k, w)) : 0 ≤ w := by
  obtain ⟨-, hw⟩ := truncate_ok_eq h
  exact hw ▸ discardedWeight_nonneg _ _

theorem applyGateAt_ok_nonneg {bk : Backend} {cfg : TruncCfg}
    {op : TwoSiteOp} {psi : MPS} {i : ℕ} {psi' : MPS} {w : ℚ}
    (h : applyGateAt bk cfg op psi i = Except.ok (psi', w)) : 0 ≤ w := by
  simp only [applyGateAt] at h
  split at h
  · split at h
    · split at h
      · exact absurd h (by simp)
      · rename_i k w' heq
        have hw : w' = w := congrArg Prod.snd ((Except.ok.injEq _ _).mp h)
        exact hw ▸ truncate_ok_nonneg heq
    · exact absurd h (by simp)
  · have hw : (0 : ℚ) = w := congrArg Prod.snd ((Except.ok.injEq _ _).mp h)
    exact hw ▸ le_refl 0

theorem sweepGo_weight_mono (bk : Backend) (cfg : TruncCfg)
    (ham : ℕ → ℝ → TwoSiteOp) (t : ℝ) :
    ∀ (bonds : List ℕ) (psi : MPS) (w : ℚ),
      w ≤ (sweepGo bk cfg ham t bonds psi w).2.1 := by
  intro bonds
  induction bonds with
  | nil => intro psi w; simp [sweepGo]
  | cons b rest ih =>
    intro psi w
    rw [sweepGo]
    cases hg : applyGateAt bk cfg (ham b t) psi b with
    | error e => exact le_refl w
    | ok r =>
      calc w ≤ w + r.2 := le_add_of_nonneg_right (applyGateAt_ok_nonneg (by
              rw [hg]))
        _ ≤ _ := ih r.1 (w + r.2)

theorem runEntries_weight_mono (bk : Backend) (cfg : TruncCfg)
    (ham : ℕ → ℝ → TwoSiteOp) :
    ∀ (sched : List (Parity × ℝ)) (psi : MPS) (w : ℚ),
      w ≤ (runEntries bk cfg ham sched psi w).2.1 := by
  intro sched
  induction sched with
  | nil => intro psi w; simp [runEntries]
  | cons entry rest ih =>
    intro psi w
    obtain ⟨p, t⟩ := entry
    rw [runEntries]
    have hws : 0 ≤ (sweepDriver bk cfg ham p t psi).2.1 :=
      sweepGo_weight_mono bk cfg ham t _ psi 0
    cases hs : (sweepDriver bk cfg ham p t psi).2.2 with
    | some e =>
      have hsw : sweepDriver bk cfg ham p t psi =
          ((sweepDriver bk cfg ham p t psi).1,
            (sweepDriver bk cfg ham p t psi).2.1, some e) := by rw [← hs]
      rw [hsw]
      exact le_add_of_nonneg_right hws
    | none =>
      have hsw : sweepDriver bk cfg ham p t psi =
          ((sweepDriver bk cfg ham p t psi).1,
            (sweepDriver bk cfg ham p t psi).2.1, none) := by rw [← hs]
      rw [hsw]
      calc w ≤ w + (sweepDriver bk cfg ham p t psi).2.1 :=
            le_add_of_nonneg_right hws
        _ ≤ _ := ih _ _

theorem timeStep_weight_nonneg (bk : Backend) (cfg : TruncCfg)
    (ham : ℕ → ℝ → TwoSiteOp) (order : ℕ) (dt : ℝ) (psi : MPS) :
    0 ≤ (timeStep bk cfg ham order dt psi).2.1 := by
  rw [timeStep]
  cases trotterSchedule order dt with
  | error e => exact le_refl 0
  | ok sched => exact runEntries_weight_mono bk cfg ham sched psi 0

theorem driverStep_cumErr (bk : Backend) (cfg : TruncCfg)
    (ham : ℕ → ℝ → TwoSiteOp) (order : ℕ) (dt : ℝ) (st : DriverState) :
    (driverStep bk cfg ham order dt st).1.cumErr =
      st.cumErr + (timeStep bk cfg ham order dt st.psi).2.1 := by
  rw [driverStep]

/-- C7 (amended): the accumulator starts at 0 on (re)initialization, is
never negative on any reachable driver state, is monotonically
non-decreasing across gate applications (within a sweep) and across
steps, and a truncation reports weight 0 exactly when every singular
value it discarded was zero. -/
theorem accumulator_invariants (bk : Backend) (cfg : TruncCfg)
    (ham : ℕ → ℝ → TwoSiteOp) (order : ℕ) (dt : ℝ) :
    (∀ psi, (initDriver psi).cumErr = 0) ∧
    (∀ st, Reachable bk cfg ham order dt st → 0 ≤ st.cumErr) ∧
    (∀ st, st.cumErr ≤ (driverStep bk cfg ham order dt st).1.cumErr) ∧
    (∀ (bonds : List ℕ) (psi : MPS) (w : ℚ),
      w ≤ (sweepGo bk cfg ham dt bonds psi w).2.1) ∧
    (∀ (svals : List ℚ) (k : ℕ) (w : ℚ),
      truncate cfg svals = Except.ok (k, w) →
        (w = 0 ↔ ∀ s ∈ svals.drop k, s = 0)) := by
  refine ⟨fun psi => rfl, ?_, ?_, sweepGo_weight_mono bk cfg ham dt, ?_⟩
  · intro st hr
    induction hr with
    | init psi => exact le_refl 0
    | step st hst ih =>
      rw [driverStep_cumErr]
      exact le_trans ih (le_add_of_nonneg_right
        (timeStep_weight_nonneg bk cfg ham order dt st.psi))
  · intro st
    rw [driverStep_cumErr]
    exact le_add_of_nonneg_right (timeStep_weight_nonneg bk cfg ham order dt st.psi)
  · intro svals k w h
    obtain ⟨hk, hw⟩ := truncate_ok_eq h
    subst hk
    subst hw
    exact discardedWeight_eq_zero_iff svals _

/-- Witness for C7 (amended) on concrete data. -/
theorem accumulator_invariants_witness :
    0 ≤ (initDriver psi0).cumErr ∧
      ((0 : ℚ) = 0 ↔ ∀ s ∈ ([1, 0] : List ℚ).drop 1, s = 0) :=
  ⟨(accumulator_invariants bk0 cfgZ ham0 2 1).2.1 _ (Reachable.init psi0),
   (accumulator_invariants bk0 cfgZ ham0 2 1).2.2.2.2 [1, 0] 1 0
     (by simp [truncate, keptRank, discardedWeight, List.takeWhile, cfgZ])⟩

/-- Counterexample for C7 as stated ("equals 0 only when no singular
values were discarded"): with the spectrum `[1, 0]` and a kept rank of 1,
one singular value is discarded, yet the reported weight — and hence the
per-sweep accumulated truncation error — is exactly 0. -/
theorem accumulator_zero_counterexample :
    truncate cfgZ (bk0.svd (bk0.contract T0 T0 op0)) = Except.ok (1, 0) ∧
      (bk0.svd (bk0.contract T0 T0 op0)).length = 2 ∧
      (sweepDriver bk0 cfgZ ham0 Parity.odd 1 psi0).2 = (0, none) := by
  have htr : truncate cfgZ [1, 0] = Except.ok (1, 0) := by
    simp [truncate, keptRank, discardedWeight, List.takeWhile, cfgZ]
  refine ⟨htr, rfl, ?_⟩
  have hb : sweepBonds psi0.sites.length psi0.finite Parity.odd = [1] := rfl
  show (sweepGo bk0 cfgZ ham0 1
      (sweepBonds psi0.sites.length psi0.finite Parity.odd) psi0 0).2 = (0, none)
  rw [hb]
  simp [sweepGo, applyGateAt, ham0, psi0, bk0, op0, T0, blk0, bondSiteIdx, htr]

/-! ## C9: bond ranges of a sweep -/

/-- C9 (amended): on a finite chain a sweep of parity `p` visits only
bonds `i` with `1 ≤ i ≤ L-1` of that parity, in ascending order, and the
two sites it touches lie inside `[0, L)`; on an infinite chain the sweep
visits bonds `0 ≤ i ≤ L-1` of parity `p` in ascending order with the left
site index computed modularly, so it is bond 0 that wraps, pairing site
`L-1` with site 0. -/
theorem sweep_bond_ranges (L : ℕ) (p : Parity) :
    (∀ i ∈ sweepBonds L true p,
      1 ≤ i ∧ i < L ∧ parityOf i = p ∧
        (bondSiteIdx L true i).1 < L ∧ (bondSiteIdx L true i).2 < L) ∧
    List.Pairwise (fun a b => a < b) (sweepBonds L true p) ∧
    List.Pairwise (fun a b => a < b) (sweepBonds L false p) ∧
    (∀ i ∈ sweepBonds L false p,
      i < L ∧ parityOf i = p ∧ bondSiteIdx L false i = ((i + L - 1) % L, i)) ∧
    (0 < L → bondSiteIdx L false 0 = (L - 1, 0)) := by
  refine ⟨?_, ?_, ?_, ?_, ?_⟩
  · intro i hi
    simp only [sweepBonds, List.mem_filter, List.mem_range, Bool.and_eq_true,
      decide_eq_true_eq] at hi
    obtain ⟨hiL, h1, hp⟩ := hi
    refine ⟨h1, hiL, hp, ?_, ?_⟩ <;> simp [bondSiteIdx] <;> omega
  · exact (List.pairwise_lt_range L).sublist (List.filter_sublist _)
  · exact (List.pairwise_lt_range L).sublist (List.filter_sublist _)
  · intro i hi
    simp only [sweepBonds, List.mem_filter, List.mem_range,
      decide_eq_true_eq] at hi
    obtain ⟨hiL, hp⟩ := hi
    refine ⟨hiL, hp, ?_⟩
    simp [bondSiteIdx, Nat.mod_eq_of_lt hiL]
  · intro hL
    simp [bondSiteIdx, Nat.mod_eq_of_lt (show L - 1 < L by omega)]

/-- Witness for C9 (amended): a finite chain of length 5, even parity,
bond 2; and the wrapping bond 0 of an infinite chain of length 5. -/
theorem sweep_bond_ranges_witness :
    (1 ≤ 2 ∧ 2 < 5 ∧ parityOf 2 = Parity.even ∧
      (bondSiteIdx 5 true 2).1 < 5 ∧ (bondSiteIdx 5 true 2).2 < 5) ∧
      bondSiteIdx 5 false 0 = (4, 0) :=
  ⟨(sweep_bond_ranges 5 Parity.even).1 2 (by decide),
   (sweep_bond_ranges 5 Parity.even).2.2.2.2 (by decide)⟩

/-- Counterexample for C9 as stated: the claim says that on an
infinite/periodic chain bond `L-1` pairs site `L-1` with site 0. With the
source's bond convention (bond `i` sits between sites `(i-1, i)`), on an
infinite chain of length 4 bond 3 pairs sites `(2, 3)` and does not touch
site 0 at all; the wrap-around bond is bond 0, which pairs site 3 with
site 0. -/
theorem infinite_wrap_counterexample :
    bondSiteIdx 4 false 3 = (2, 3) ∧
      (bondSiteIdx 4 false 3).1 ≠ 0 ∧ (bondSiteIdx 4 false 3).2 ≠ 0 ∧
      bondSiteIdx 4 false 0 = (3, 0) := by
  refine ⟨?_, ?_, ?_, ?_⟩ <;> simp [bondSiteIdx]

/-! ## C8: bond-dimension consistency -/

/-- Validity of a bond index: `1 ≤ i < L` on a finite chain, `i < L` on an
infinite chain of at least two sites (on a one-site unit cell the two
"adjacent" sites coincide and the pair update is not meaningful). -/
abbrev bondOk (L : ℕ) (finite : Bool) (i : ℕ) : Prop :=
  match finite with
  | true => 1 ≤ i ∧ i < L
  | false => i < L ∧ 2 ≤ L

/-- Bond-dimension consistency: every site tensor's right bond dimension
equals its right neighbor's left bond dimension, including the wrap-around
link on an infinite chain. -/
def consistent (psi : MPS) : Bool :=
  ((List.range (psi.sites.length - 1)).all fun j =>
      (siteD psi.sites j).rightDim == (siteD psi.sites (j + 1)).leftDim)
    && (psi.finite || psi.sites.isEmpty ||
        ((siteD psi.sites (psi.sites.length - 1)).rightDim ==
          (siteD psi.sites 0).leftDim))

theorem consistent_iff (psi : MPS) :
    consistent psi = true ↔
      ((∀ j, j + 1 < psi.sites.length →
          (siteD psi.sites j).rightDim = (siteD psi.sites (j + 1)).leftDim) ∧
        (psi.finite = false → psi.sites ≠ [] →
          (siteD psi.sites (psi.sites.length - 1)).rightDim =
            (siteD psi.sites 0).leftDim)) := by
  simp only [consistent, Bool.and_eq_true, List.all_eq_true, List.mem_range,
    beq_iff_eq, Bool.or_eq_true, List.isEmpty_iff]
  constructor
  · rintro ⟨h1, h2⟩
    refine ⟨fun j hj => h1 j (by omega), ?_⟩
    intro hfin hne
    rcases h2 with (h | h) | h
    · rw [hfin] at h
      exact absurd h (by simp)
    · exact absurd h hne
    · exact h
  · rintro ⟨h1, h2⟩
    refine ⟨fun j hj => h1 j (by omega), ?_⟩
    cases hf : psi.finite with
    | true => exact Or.inl (Or.inl rfl)
    | false =>
      by_cases hne : psi.sites = []
      · exact Or.inl (Or.inr hne)
      · exact Or.inr (h2 hf hne)

theorem siteD_set {l : List SiteTensor} {m : ℕ} {x : SiteTensor}
    (hm : m < l.length) (j : ℕ) :
    siteD (l.set m x) j = if j = m then x else siteD l j := by
  induction l generalizing m j with
  | nil => exact absurd hm (by simp)
  | cons a t ih =>
    cases m with
    | zero =>
      cases j with
      | zero => simp [siteD]
      | succ s => simp [siteD]
    | succ n =>
      cases j with
      | zero => simp [siteD]
      | succ s =>
        have hn : n < t.length := by simpa using hm
        have hrec := ih hn s
        simp only [siteD] at hrec
        simp only [List.set_cons_succ, siteD, List.getD_cons_succ]
        rw [hrec]
        by_cases hsn : s = n
        · rw [if_pos hsn, if_pos (by omega)]
        · rw [if_neg hsn, if_neg (by omega)]

theorem siteD_of_getElem? {l : List SiteTensor} {j : ℕ} {x : SiteTensor}
    (h : l[j]? = some x) : siteD l j = x := by
  rw [siteD, List.getD_eq_getElem?_getD, h]
  rfl

/-- On success, the gate application either skipped an out-of-range bond
(state unchanged) or replaced the two sites of the bond by a pair whose
outer bond dimensions are preserved and whose shared bond dimensions
agree. -/
theorem applyGateAt_ok_chars {bk : Backend} {cfg : TruncCfg}
    {op : TwoSiteOp} {psi : MPS} {i : ℕ} {psi' : MPS} {w : ℚ}
    (h : applyGateAt bk cfg op psi i = Except.ok (psi', w)) :
    psi' = psi ∨
      ∃ x y : SiteTensor,
        psi'.sites =
          (psi.sites.set (bondSiteIdx psi.sites.length psi.finite i).1 x).set
            (bondSiteIdx psi.sites.length psi.finite i).2 y ∧
        psi'.finite = psi.finite ∧
        x.leftDim =
          (siteD psi.sites (bondSiteIdx psi.sites.length psi.finite i).1).leftDim ∧
        x.rightDim = y.leftDim ∧
        y.rightDim =
          (siteD psi.sites (bondSiteIdx psi.sites.length psi.finite i).2).rightDim := by
  simp only [applyGateAt] at h
  split at h
  · rename_i Tl Tr hTl hTr
    split at h
    · split at h
      · exact absurd h (by simp)
      · rename_i k w' heq
        right
        have hpw := (Except.ok.injEq _ _).mp h
        have hpsi' : psi' =
            ⟨(psi.sites.set (bondSiteIdx psi.sites.length psi.finite i).1
                { leftDim := Tl.leftDim, physDim := Tl.physDim, rightDim := k,
                  entries := bk.factorL (bk.contract Tl Tr op) k }).set
              (bondSiteIdx psi.sites.length psi.finite i).2
                { leftDim := k, physDim := Tr.physDim, rightDim := Tr.rightDim,
                  entries := bk.factorR (bk.contract Tl Tr op) k },
              psi.finite⟩ :=
          (congrArg Prod.fst hpw).symm
        subst hpsi'
        exact ⟨_, _, rfl, rfl, by rw [siteD_of_getElem? hTl], rfl,
          by rw [siteD_of_getElem? hTr]⟩
    · exact absurd h (by simp)
  · left
    exact ((congrArg Prod.fst ((Except.ok.injEq _ _).mp h)).symm)

theorem applyGateAt_ok_dims {bk : Backend} {cfg : TruncCfg}
    {op : TwoSiteOp} {psi : MPS} {i : ℕ} {psi' : MPS} {w : ℚ}
    (h : applyGateAt bk cfg op psi i = Except.ok (psi', w)) :
    psi'.sites.length = psi.sites.length ∧ psi'.finite = psi.finite := by
  rcases applyGateAt_ok_chars h with rfl | ⟨x, y, hsites, hfin, -, -, -⟩
  · exact ⟨rfl, rfl⟩
  · exact ⟨by rw [hsites]; simp, hfin⟩

theorem gate_preserves_consistent {bk : Backend} {cfg : TruncCfg}
    {op : TwoSiteOp} {psi : MPS} {i : ℕ} {psi' : MPS} {w : ℚ}
    (hrange : bondOk psi.sites.length psi.finite i)
    (hc : consistent psi = true)
    (h : applyGateAt bk cfg op psi i = Except.ok (psi', w)) :
    consistent psi' = true := by
  rcases applyGateAt_ok_chars h with rfl | ⟨x, y, hsites, hfin, hxl, hxy, hyr⟩
  · exact hc
  obtain ⟨a, b, hab⟩ : ∃ a b, bondSiteIdx psi.sites.length psi.finite i = (a, b) :=
    ⟨_, _, rfl⟩
  rw [hab] at hsites hxl hyr
  dsimp only [] at hsites hxl hyr
  have hshape : (b = a + 1 ∧ a + 1 < psi.sites.length) ∨
      (psi.finite = false ∧ 2 ≤ psi.sites.length ∧
        a = psi.sites.length - 1 ∧ b = 0) := by
    cases hf : psi.finite with
    | true =>
      have hr : 1 ≤ i ∧ i < psi.sites.length := by rw [hf] at hrange; exact hrange
      rw [hf] at hab
      rw [show bondSiteIdx psi.sites.length true i = (i - 1, i) from rfl] at hab
      rw [Prod.mk.injEq] at hab
      left
      omega
    | false =>
      have hr : i < psi.sites.length ∧ 2 ≤ psi.sites.length := by
        rw [hf] at hrange; exact hrange
      rw [hf] at hab
      rw [show bondSiteIdx psi.sites.length false i =
        ((i + psi.sites.length - 1) % psi.sites.length, i % psi.sites.length)
        from rfl] at hab
      rw [Prod.mk.injEq] at hab
      obtain ⟨ha', hb'⟩ := hab
      rw [Nat.mod_eq_of_lt hr.1] at hb'
      by_cases hi0 : i = 0
      · right
        subst hi0
        refine ⟨rfl, hr.2, ?_, hb'.symm⟩
        rw [← ha']
        simp [Nat.mod_eq_of_lt
          (show psi.sites.length - 1 < psi.sites.length by omega)]
      · left
        have hmod : (i + psi.sites.length - 1) % psi.sites.length = i - 1 := by
          have h1 : i + psi.sites.length - 1 = (i - 1) + psi.sites.length := by
            omega
          rw [h1, Nat.add_mod_right]
          exact Nat.mod_eq_of_lt (by omega)
        have ha2 : a = i - 1 := by rw [← ha', hmod]
        omega
  have haL : a < psi.sites.length := by
    rcases hshape with ⟨h1, h2⟩ | ⟨-, h2, h3, -⟩ <;> omega
  have hbL : b < psi.sites.length := by
    rcases hshape with ⟨h1, h2⟩ | ⟨-, h2, -, h4⟩ <;> omega
  have hsd : ∀ j, siteD ((psi.sites.set a x).set b y) j =
      if j = b then y else if j = a then x else siteD psi.sites j := by
    intro j
    rw [siteD_set (by rw [List.length_set]; exact hbL) j]
    by_cases hjb : j = b
    · rw [if_pos hjb, if_pos hjb]
    · rw [if_neg hjb, if_neg hjb, siteD_set haL j]
  rw [consistent_iff] at hc
  obtain ⟨hc1, hc2⟩ := hc
  rw [consistent_iff]
  constructor
  · intro j hj
    rw [hsites] at hj
    simp only [List.length_set] at hj
    rw [hsites, hsd j, hsd (j + 1)]
    rcases hshape with ⟨hba, haL1⟩ | ⟨hinf, hL2, haL1, hb0⟩
    · by_cases hja : j = a
      · rw [if_neg (by omega), if_pos hja, if_pos (by omega)]
        exact hxy
      · by_cases hjb : j = b
        · subst hjb
          rw [if_pos rfl, if_neg (by omega), if_neg (by omega)]
          rw [hyr]
          exact hc1 j (by omega)
        · rw [if_neg hjb, if_neg hja]
          by_cases hj1a : j + 1 = a
          · rw [if_neg (by omega), if_pos hj1a, hxl, ← hj1a]
            exact hc1 j (by omega)
          · by_cases hj1b : j + 1 = b
            · exact absurd (show j = a by omega) hja
            · rw [if_neg hj1b, if_neg hj1a]
              exact hc1 j (by omega)
    · by_cases hjb : j = b
      · subst hjb
        rw [if_pos rfl]
        by_cases hj1a : j + 1 = a
        · rw [if_neg (by omega), if_pos hj1a, hyr, hxl, ← hj1a]
          exact hc1 j (by omega)
        · rw [if_neg (by omega), if_neg hj1a, hyr]
          exact hc1 j (by omega)
      · rw [if_neg hjb, if_neg (by omega)]
        by_cases hj1a : j + 1 = a
        · rw [if_neg (by omega), if_pos hj1a, hxl, ← hj1a]
          exact hc1 j (by omega)
        · rw [if_neg (by omega), if_neg hj1a]
          exact hc1 j (by omega)
  · intro hfin' hne
    have hpfin : psi.finite = false := by rw [← hfin]; exact hfin'
    rw [hsites] at hne
    rw [hsites]
    simp only [List.length_set]
    rw [hsd (psi.sites.length - 1), hsd 0]
    have hpsine : psi.sites ≠ [] := by
      intro hcon
      rw [hcon] at hne
      simp at hne
    have hwrap := hc2 hpfin hpsine
    rcases hshape with ⟨hba, haL1⟩ | ⟨hinf, hL2, haL1, hb0⟩
    · have h0b : ¬((0 : ℕ) = b) := by omega
      have hL1a : ¬(psi.sites.length - 1 = a) := by omega
      by_cases hL1b : psi.sites.length - 1 = b
      · rw [if_pos hL1b, if_neg h0b, hyr, ← hL1b]
        by_cases h0a : (0 : ℕ) = a
        · rw [if_pos h0a, hxl, ← h0a]
          exact hwrap
        · rw [if_neg h0a]
          exact hwrap
      · rw [if_neg hL1b, if_neg hL1a, if_neg h0b]
        by_cases h0a : (0 : ℕ) = a
        · rw [if_pos h0a, hxl, ← h0a]
          exact hwrap
        · rw [if_neg h0a]
          exact hwrap
    · rw [if_neg (by omega), if_pos (by omega), if_pos (by omega)]
      exact hxy

theorem sweepGo_preserves_consistent (bk : Backend) (cfg : TruncCfg)
    (ham : ℕ → ℝ → TwoSiteOp) (t : ℝ) :
    ∀ (bonds : List ℕ) (psi : MPS) (w0 : ℚ),
      (∀ b ∈ bonds, bondOk psi.sites.length psi.finite b) →
      consistent psi = true →
      consistent (sweepGo bk cfg ham t bonds psi w0).1 = true := by
  intro bonds
  induction bonds with
  | nil =>
    intro psi w0 hbo hc
    simpa [sweepGo] using hc
  | cons b rest ih =>
    intro psi w0 hbo hc
    rw [sweepGo]
    cases hg : applyGateAt bk cfg (ham b t) psi b with
    | error e => simpa using hc
    | ok r =>
      have hgr : applyGateAt bk cfg (ham b t) psi b = Except.ok (r.1, r.2) := by
        rw [hg]
      have hcons' := gate_preserves_consistent (hbo b (List.mem_cons_self b rest)) hc hgr
      have hdims := applyGateAt_ok_dims hgr
      exact ih r.1 (w0 + r.2)
        (fun b' hb' => by
          rw [hdims.1, hdims.2]
          exact hbo b' (List.mem_cons_of_mem _ hb'))
        hcons'

/-- C8: bond-dimension consistency is an invariant: a successful
GateApplicator call on a valid bond of a consistent MPS returns a
consistent MPS (restoring the shared bond before returning), and hence a
sweep keeps the MPS consistent at every point between gate calls. -/
theorem bond_consistency_preserved :
    (∀ (bk : Backend) (cfg : TruncCfg) (op : TwoSiteOp) (psi : MPS) (i : ℕ)
        (psi' : MPS) (w : ℚ),
      bondOk psi.sites.length psi.finite i →
      consistent psi = true →
      applyGateAt bk cfg op psi i = Except.ok (psi', w) →
      consistent psi' = true) ∧
    (∀ (bk : Backend) (cfg : TruncCfg) (ham : ℕ → ℝ → TwoSiteOp) (t : ℝ)
        (bonds : List ℕ) (psi : MPS) (w0 : ℚ),
      (∀ b ∈ bonds, bondOk psi.sites.length psi.finite b) →
      consistent psi = true →
      consistent (sweepGo bk cfg ham t bonds psi w0).1 = true) :=
  ⟨fun _ _ _ _ _ _ _ hr hc h => gate_preserves_consistent hr hc h,
   fun bk cfg ham t bonds psi w0 hbo hc =>
     sweepGo_preserves_consistent bk cfg ham t bonds psi w0 hbo hc⟩

/-- Witness for C8: a sweep over bond 1 of a concrete consistent two-site
chain stays consistent. -/
theorem bond_consistency_preserved_witness :
    consistent (sweepGo bk0 cfg0 ham0 1 [1] psi0 0).1 = true :=
  bond_consistency_preserved.2 bk0 cfg0 ham0 1 [1] psi0 0
    (by
      intro b hb
      have hb1 : b = 1 := by simpa using hb
      subst hb1
      exact ⟨by decide, by decide⟩)
    (by decide)

end Tebd
